import Mathlib

/-!
Verification of the Weisfeiler-Lehman kernel engine
(`src/grakel/kernels/weisfeiler_lehman.py`) against its specification.

The Python source is shallowly embedded: graphs become `WLGraph`
(adjacency keys plus neighbour lists plus raw labels, all over `Nat`
node ids and `Nat` raw label values), Python dictionaries mapping a
sorted sequence of distinct keys to consecutive integer codes become
sorted duplicate-free lists together with an offset, and the
per-iteration relabeling loops of `parse_input` (fit path) and
`transform` become the recursions `fitIter` and `transIter`.
-/

namespace GrakelWL

/-! ### Python string rendering of integers and lists

`parse_input` and `transform` build each signature with
`str(L[j][v]) + "," + str(sorted([...]))`.  We embed Python's `str` on
non-negative integers (decimal digits, via Lean's decimal `Nat.repr`)
and on lists of integers (`"[a, b, c]"` with `", "` separators). -/

/-- Python `str` of a non-negative integer: its decimal rendering. -/
def pyStr (n : Nat) : String := toString n

/-- Python `str` of a list of non-negative integers, e.g. `"[0, 1]"`, `"[]"`. -/
def pyListStr : List Nat → String
  | [] => "[]"
  | a :: l => "[" ++ pyStr a ++ (l.foldl (fun acc n => acc ++ ", " ++ pyStr n) "") ++ "]"

theorem pyStr_eq_repr (n : Nat) : pyStr n = (Nat.toDigits 10 n).asString := rfl

theorem length_asString (l : List Char) : l.asString.length = l.length := rfl

theorem pyStr_length_pos (n : Nat) : 0 < (pyStr n).length := by
  rw [pyStr_eq_repr, length_asString]
  show 0 < (Nat.toDigitsCore 10 (n + 1) n []).length
  simp only [Nat.toDigitsCore]
  split
  · simp
  · rw [Nat.toDigitsCore_lens_eq]
    omega

theorem length_append' (a b : String) : (a ++ b).length = a.length + b.length :=
  String.length_append a b

/-- A nonempty list renders with length at least 3 (`"[x]"` or longer). -/
theorem pyListStr_length_ge (a : Nat) (l : List Nat) : 3 ≤ (pyListStr (a :: l)).length := by
  show 3 ≤ ("[" ++ pyStr a ++ (l.foldl (fun acc n => acc ++ ", " ++ pyStr n) "") ++ "]").length
  simp only [length_append']
  have h1 : ("[" : String).length = 1 := rfl
  have h2 : ("]" : String).length = 1 := rfl
  have := pyStr_length_pos a
  omega

/-! ### Python string comparison

Python compares strings lexicographically by code point.  (Lean's own
`String` order is definitionally equal but is implemented by
well-founded recursion over byte iterators, which the kernel cannot
evaluate, so we embed the comparison directly.) -/

/-- Lexicographic (code-point) `≤` on character lists, as Python compares strings. -/
def strLeAux : List Char → List Char → Bool
  | [], _ => true
  | _ :: _, [] => false
  | a :: as, b :: bs =>
    if a.val.toNat < b.val.toNat then true
    else if b.val.toNat < a.val.toNat then false
    else strLeAux as bs

/-- Python's `≤` on strings. -/
def pyStrLe (a b : String) : Bool := strLeAux a.data b.data

/-- Python's string order as a relation, used to embed `sorted()` on signature strings. -/
def StrOrd : String → String → Prop := fun a b => pyStrLe a b = true

instance : DecidableRel StrOrd := fun _ _ => inferInstanceAs (Decidable (_ = true))

theorem strLeAux_total : ∀ l1 l2 : List Char, strLeAux l1 l2 = true ∨ strLeAux l2 l1 = true
  | [], _ => Or.inl rfl
  | _ :: _, [] => Or.inr rfl
  | a :: as, b :: bs => by
    simp only [strLeAux]
    rcases Nat.lt_trichotomy a.val.toNat b.val.toNat with h | h | h
    · left; simp [h]
    · have h1 : ¬a.val.toNat < b.val.toNat := by omega
      have h2 : ¬b.val.toNat < a.val.toNat := by omega
      rcases strLeAux_total as bs with ih | ih <;> simp [h1, h2, ih]
    · right; simp [h, Nat.lt_asymm h]

theorem strLeAux_trans : ∀ l1 l2 l3 : List Char,
    strLeAux l1 l2 = true → strLeAux l2 l3 = true → strLeAux l1 l3 = true
  | [], _, _, _, _ => rfl
  | a :: as, [], _, h, _ => by simp [strLeAux] at h
  | _ :: _, _ :: _, [], _, h => by simp [strLeAux] at h
  | a :: as, b :: bs, c :: cs, h1, h2 => by
    simp only [strLeAux] at h1 h2 ⊢
    by_cases hab : a.val.toNat < b.val.toNat
    · by_cases hbc : b.val.toNat < c.val.toNat
      · have hac : a.val.toNat < c.val.toNat := by omega
        simp [hac]
      · by_cases hcb : c.val.toNat < b.val.toNat
        · simp [hbc, hcb] at h2
        · have hac : a.val.toNat < c.val.toNat := by omega
          simp [hac]
    · by_cases hba : b.val.toNat < a.val.toNat
      · simp [hab, hba] at h1
      · by_cases hbc : b.val.toNat < c.val.toNat
        · have hac : a.val.toNat < c.val.toNat := by omega
          simp [hac]
        · by_cases hcb : c.val.toNat < b.val.toNat
          · simp [hbc, hcb] at h2
          · have hac : ¬a.val.toNat < c.val.toNat := by omega
            have hca : ¬c.val.toNat < a.val.toNat := by omega
            simp only [hab, hba, ite_false] at h1
            simp only [hbc, hcb, ite_false] at h2
            simp only [hac, hca, ite_false]
            exact strLeAux_trans as bs cs h1 h2

theorem strLeAux_antisymm : ∀ l1 l2 : List Char,
    strLeAux l1 l2 = true → strLeAux l2 l1 = true → l1 = l2
  | [], [], _, _ => rfl
  | [], _ :: _, _, h => by simp [strLeAux] at h
  | _ :: _, [], h, _ => by simp [strLeAux] at h
  | a :: as, b :: bs, h1, h2 => by
    simp only [strLeAux] at h1 h2
    rcases Nat.lt_trichotomy a.val.toNat b.val.toNat with hab | hab | hab
    · simp [hab, Nat.lt_asymm hab] at h2
    · have hc : a = b := Char.ext (UInt32.ext hab)
      have h1' : ¬a.val.toNat < b.val.toNat := by omega
      have h2' : ¬b.val.toNat < a.val.toNat := by omega
      simp only [h1', h2', ite_false] at h1 h2
      rw [hc, strLeAux_antisymm as bs h1 h2]
    · simp [hab, Nat.lt_asymm hab] at h1

instance : IsTotal String StrOrd := ⟨fun a b => strLeAux_total a.data b.data⟩

instance : IsTrans String StrOrd := ⟨fun a b c => strLeAux_trans a.data b.data c.data⟩

instance : IsAntisymm String StrOrd :=
  ⟨fun a b h1 h2 => by
    cases a; cases b
    exact congrArg String.mk (strLeAux_antisymm _ _ h1 h2)⟩

/-! ### `sorted(list(set(...)))`

Both relabeling loops turn a collection of values into a Python dict by
enumerating `sorted(list(value_set))`.  We embed that idiom as
`sortedDedup`: the sorted duplicate-free list of the collected values,
and assign value `x` the position `posOf x (sortedDedup r l)`. -/

/-- Embeds Python's `sorted(list(set(l)))`. -/
def sortedDedup {α : Type} [DecidableEq α] (r : α → α → Prop) [DecidableRel r]
    (l : List α) : List α :=
  List.insertionSort r l.dedup

theorem mem_sortedDedup {α : Type} [DecidableEq α] (r : α → α → Prop) [DecidableRel r]
    {l : List α} {x : α} : x ∈ sortedDedup r l ↔ x ∈ l := by
  unfold sortedDedup
  rw [(List.perm_insertionSort r _).mem_iff, List.mem_dedup]

theorem nodup_sortedDedup {α : Type} [DecidableEq α] (r : α → α → Prop) [DecidableRel r]
    (l : List α) : (sortedDedup r l).Nodup :=
  (List.perm_insertionSort r l.dedup).symm.nodup (List.nodup_dedup l)

theorem sorted_sortedDedup {α : Type} [DecidableEq α] (r : α → α → Prop) [DecidableRel r]
    [IsTotal α r] [IsTrans α r] (l : List α) : List.Sorted r (sortedDedup r l) :=
  List.sorted_insertionSort r l.dedup

/-- `sorted(list(set(·)))` depends only on the set of collected values. -/
theorem sortedDedup_eq_of_mem_iff {α : Type} [DecidableEq α] (r : α → α → Prop)
    [DecidableRel r] [IsTotal α r] [IsTrans α r] [IsAntisymm α r] {l l' : List α}
    (h : ∀ x, x ∈ l ↔ x ∈ l') : sortedDedup r l = sortedDedup r l' := by
  refine List.eq_of_perm_of_sorted ?_ (sorted_sortedDedup r l) (sorted_sortedDedup r l')
  rw [List.perm_ext_iff_of_nodup (nodup_sortedDedup r l) (nodup_sortedDedup r l')]
  intro a
  rw [mem_sortedDedup, mem_sortedDedup]
  exact h a

theorem length_sortedDedup {α : Type} [DecidableEq α] (r : α → α → Prop) [DecidableRel r]
    (l : List α) : (sortedDedup r l).length = l.dedup.length :=
  (List.perm_insertionSort r l.dedup).length_eq

/-! ### Positions in a Python dict built from a sorted list

A Python dict built by `for dv in sorted_list: d[dv] = count; count += 1`
maps key `x` to `start + posOf x sorted_list`. -/

/-- Position of the first occurrence of `a` in `l` (the code assigned to key
`a` when a Python dict is filled from `l` with consecutive integers). -/
def posOf {α : Type} [DecidableEq α] (a : α) : List α → Nat
  | [] => 0
  | b :: l => if b = a then 0 else posOf a l + 1

theorem posOf_lt_length {α : Type} [DecidableEq α] {a : α} :
    ∀ {l : List α}, a ∈ l → posOf a l < l.length
  | b :: l, h => by
    simp only [posOf]
    split
    · simp
    · next hne =>
      have hal : a ∈ l := by
        rcases List.mem_cons.1 h with h' | h'
        · exact absurd h'.symm hne
        · exact h'
      have := posOf_lt_length hal
      simp only [List.length_cons]
      omega

theorem posOf_get {α : Type} [DecidableEq α] :
    ∀ {l : List α}, l.Nodup → ∀ i : Fin l.length, posOf (l.get i) l = i.val
  | b :: l, hn, ⟨0, _⟩ => by simp [posOf]
  | b :: l, hn, ⟨i + 1, hi⟩ => by
    have hbl : b ∉ l := (List.nodup_cons.1 hn).1
    have hmem : l.get ⟨i, by simpa using hi⟩ ∈ l := List.get_mem l i (by simpa using hi)
    have hne : b ≠ l.get ⟨i, by simpa using hi⟩ := fun h => hbl (h ▸ hmem)
    simp only [List.get_cons_succ, posOf, if_neg hne]
    rw [posOf_get (List.nodup_cons.1 hn).2 ⟨i, by simpa using hi⟩]

/-- In a sorted duplicate-free list, positions are strictly monotone in the
order: codes are handed out in ascending key order. -/
theorem posOf_lt_posOf {α : Type} [DecidableEq α] {r : α → α → Prop} [IsAntisymm α r] :
    ∀ {l : List α}, List.Sorted r l → l.Nodup → ∀ {x y : α}, x ∈ l → y ∈ l →
      r x y → x ≠ y → posOf x l < posOf y l
  | b :: l, hs, hn, x, y, hx, hy, hr, hne => by
    simp only [posOf]
    by_cases hbx : b = x
    · subst hbx
      rw [if_pos rfl, if_neg hne]
      omega
    · have hxl : x ∈ l := by
        rcases List.mem_cons.1 hx with h' | h'
        · exact absurd h'.symm hbx
        · exact h'
      by_cases hby : b = y
      · subst hby
        exact absurd (antisymm hr ((List.sorted_cons.1 hs).1 x hxl)) hne
      · have hyl : y ∈ l := by
          rcases List.mem_cons.1 hy with h' | h'
          · exact absurd h'.symm hby
          · exact h'
        have := posOf_lt_posOf (List.sorted_cons.1 hs).2 (List.nodup_cons.1 hn).2
          hxl hyl hr hne
        simp only [if_neg hbx, if_neg hby]
        omega

/-! ### The graph data model

`parse_input` keeps, per graph, `Gs_ed[j]` (`get_edge_dictionary()`:
node id → dict of neighbour ids) and `L[j]` (`get_labels()`:
node id → raw label).  Node ids and raw label values are embedded as
`Nat` (Python requires the raw labels to be sortable; a fixed total
order is all the code uses). -/

/-- A parsed graph: the key set of the edge dictionary, the neighbour keys of
each node, and the raw node labels. -/
structure WLGraph where
  nodes : List Nat
  adj : Nat → List Nat
  label : Nat → Nat

/-- Well-formedness required of the Graph collaborator (spec §6): every
neighbour id is itself a node key. -/
def WLGraph.WF (g : WLGraph) : Prop := ∀ v ∈ g.nodes, ∀ n ∈ g.adj v, n ∈ g.nodes

instance (g : WLGraph) : Decidable g.WF :=
  inferInstanceAs (Decidable (∀ v ∈ g.nodes, ∀ n ∈ g.adj v, n ∈ g.nodes))

/-- Python's `sorted` on a list of integer codes. -/
def pySorted (l : List Nat) : List Nat := List.insertionSort (· ≤ ·) l

/-- The signature string of node `v` under current labeling `L`:
`str(L[j][v]) + "," + str(sorted([L[j][n] for n in Gs_ed[j][v].keys()]))`. -/
def cred (g : WLGraph) (L : Nat → Nat) (v : Nat) : String :=
  pyStr (L v) ++ "," ++ pyListStr (pySorted ((g.adj v).map L))

/-- All signature strings of one graph (one per node, in node-key order). -/
def graphCreds (g : WLGraph) (L : Nat → Nat) : List String :=
  g.nodes.map (cred g L)

/-- All signature strings of a batch of labelled graphs. -/
def batchCreds (gls : List (WLGraph × (Nat → Nat))) : List String :=
  gls.flatMap fun gl => graphCreds gl.1 gl.2

/-! ### The fit path (`parse_input`, method_calling 1/2)

Iteration 0 collects `distinct_values` over the whole batch and assigns
`WL_labels_inverse[dv] = label_count` in ascending sorted order starting
from 0.  Each later iteration collects the distinct signature strings,
sorts them, and continues the same `label_count` counter.  The
dictionary of iteration `i ≥ 1` is recorded in `invs[i-1]` as its
starting offset paired with the sorted key list. -/

/-- The sorted distinct raw label values of a batch (`sorted(list(distinct_values))`). -/
def distinctValues (batch : List WLGraph) : List Nat :=
  sortedDedup (· ≤ ·) (batch.flatMap fun g => g.nodes.map g.label)

/-- Iteration-0 labeling of one graph: raw label ↦ its code in the dict built
from the sorted distinct values (`new_labels[k] = WL_labels_inverse[L[j][k]]`). -/
def label0 (dv : List Nat) (g : WLGraph) : Nat → Nat :=
  fun v => posOf (g.label v) dv

/-- State of the fit loop: the iteration-0 key list, the per-graph current
labelings, the global `label_count`, and the recorded per-iteration inverse
dictionaries (offset, sorted key list) for iterations `1, 2, ...`. -/
structure FitState where
  dv : List Nat
  gls : List (WLGraph × (Nat → Nat))
  cnt : Nat
  invs : List (Nat × List String)

/-- Distinct signature strings of the current batch labeling, sorted
(`label_list = sorted(list(label_set))`). -/
def stepSigs (gls : List (WLGraph × (Nat → Nat))) : List String :=
  sortedDedup StrOrd (batchCreds gls)

/-- Relabel one graph: `new_labels[k] = WL_labels_inverse[L_temp[j][k]]`, where
the dict assigns `cnt + position` to the sorted signature keys. -/
def relabel (cnt : Nat) (sigs : List String) (gl : WLGraph × (Nat → Nat)) :
    WLGraph × (Nat → Nat) :=
  (gl.1, fun v => cnt + posOf (cred gl.1 gl.2 v) sigs)

/-- Iteration 0 of `parse_input`. -/
def fitInit (batch : List WLGraph) : FitState :=
  let dv := distinctValues batch
  ⟨dv, batch.map fun g => (g, label0 dv g), dv.length, []⟩

/-- One refinement iteration of `parse_input` (the body of
`for i in range(1, self._niter)`). -/
def fitStep (st : FitState) : FitState :=
  let sigs := stepSigs st.gls
  ⟨st.dv, st.gls.map (relabel st.cnt sigs), st.cnt + sigs.length,
    st.invs ++ [(st.cnt, sigs)]⟩

/-- The fit loop after iteration `i` (`i = 0` is iteration 0). -/
def fitIter (batch : List WLGraph) : Nat → FitState
  | 0 => fitInit batch
  | i + 1 => fitStep (fitIter batch i)

/-! ### The transform path (`transform`)

Iteration 0 looks raw labels up in `self._inv_labels[0]` and assigns
previously-unseen values fresh codes starting at `nl = len(self._inv_labels[0])`.
Iteration `i ≥ 1` looks signature strings up in `self._inv_labels[i]` and
assigns unseen signatures codes starting at `nl = len(self._inv_labels[i])`
(`idx = len(WL_labels_inverse) + nl`); the unseen-code dictionary is local
to the call. -/

/-- Iteration 0 of `transform` for a query batch, against the fitted
iteration-0 key list `inv0`. -/
def tlabel0 (inv0 : List Nat) (qbatch : List WLGraph) : List (WLGraph × (Nat → Nat)) :=
  let unseen := sortedDedup (· ≤ ·)
    ((qbatch.flatMap fun g => g.nodes.map g.label).filter fun v => v ∉ inv0)
  qbatch.map fun g =>
    (g, fun v =>
      if g.label v ∈ inv0 then posOf (g.label v) inv0
      else inv0.length + posOf (g.label v) unseen)

/-- One refinement iteration of `transform`, against the fitted dictionary
`inv = (offset, sorted keys)` of that iteration. -/
def tstep (inv : Nat × List String) (gls : List (WLGraph × (Nat → Nat))) :
    List (WLGraph × (Nat → Nat)) :=
  let unseen := sortedDedup StrOrd ((batchCreds gls).filter fun c => c ∉ inv.2)
  gls.map fun gl =>
    (gl.1, fun v =>
      if cred gl.1 gl.2 v ∈ inv.2 then inv.1 + posOf (cred gl.1 gl.2 v) inv.2
      else inv.2.length + posOf (cred gl.1 gl.2 v) unseen)

/-- The transform relabeling loop after iteration `i`, for a model fitted with
iteration-0 keys `inv0` and refinement dictionaries `invs`. -/
def transIter (inv0 : List Nat) (invs : List (Nat × List String))
    (qbatch : List WLGraph) : Nat → List (WLGraph × (Nat → Nat))
  | 0 => tlabel0 inv0 qbatch
  | i + 1 => tstep (invs.getD i (0, [])) (transIter inv0 invs qbatch i)

/-! ### Structure of the fit loop -/

theorem fitIter_dv (b : List WLGraph) : ∀ i, (fitIter b i).dv = distinctValues b
  | 0 => rfl
  | i + 1 => fitIter_dv b i

theorem fitIter_cnt_succ (b : List WLGraph) (i : Nat) :
    (fitIter b (i + 1)).cnt = (fitIter b i).cnt + (stepSigs (fitIter b i).gls).length := rfl

theorem fitIter_invs_succ (b : List WLGraph) (i : Nat) :
    (fitIter b (i + 1)).invs =
      (fitIter b i).invs ++ [((fitIter b i).cnt, stepSigs (fitIter b i).gls)] := rfl

theorem fitIter_invs_length (b : List WLGraph) : ∀ i, (fitIter b i).invs.length = i
  | 0 => rfl
  | i + 1 => by
    rw [fitIter_invs_succ, List.length_append, fitIter_invs_length b i]
    rfl

theorem fitIter_gls_length (b : List WLGraph) : ∀ i, (fitIter b i).gls.length = b.length
  | 0 => List.length_map _ _
  | i + 1 => by
    show ((fitIter b i).gls.map _).length = b.length
    rw [List.length_map, fitIter_gls_length b i]

theorem fitIter_cnt_zero (b : List WLGraph) : (fitIter b 0).cnt = (distinctValues b).length := rfl

theorem fitIter_cnt_mono (b : List WLGraph) {i j : Nat} (h : i ≤ j) :
    (fitIter b i).cnt ≤ (fitIter b j).cnt := by
  induction j with
  | zero => simp_all
  | succ j ih =>
    rcases Nat.lt_or_ge i (j + 1) with h' | h'
    · have := ih (by omega)
      rw [fitIter_cnt_succ]
      omega
    · have : i = j + 1 := by omega
      subst this
      exact le_rfl

/-- The dictionary recorded for refinement iteration `k+1` is stable once
created: in any longer run it is the offset and sorted signature list of
step `k`. -/
theorem fitIter_invs_getD (b : List WLGraph) (x : Nat × List String) :
    ∀ {i k : Nat}, k < i →
      (fitIter b i).invs.getD k x = ((fitIter b k).cnt, stepSigs (fitIter b k).gls)
  | i + 1, k, hk => by
    rw [fitIter_invs_succ]
    rcases Nat.lt_or_ge k i with h' | h'
    · rw [List.getD_append _ _ _ _ (by rw [fitIter_invs_length]; exact h')]
      exact fitIter_invs_getD b x h'
    · have hik : k = i := by omega
      subst hik
      rw [List.getD_append_right _ _ _ _ (by rw [fitIter_invs_length])]
      simp [fitIter_invs_length]

/-- The integer codes belonging to iteration `k` of a fitted model: the values
of that iteration's inverse dictionary. -/
def iterCodes (st : FitState) : Nat → List Nat
  | 0 => List.range st.dv.length
  | k + 1 =>
    (List.range (st.invs.getD k (0, [])).2.length).map
      fun j => (st.invs.getD k (0, [])).1 + j

theorem label_mem_distinctValues {b : List WLGraph} {g : WLGraph} {v : Nat}
    (hg : g ∈ b) (hv : v ∈ g.nodes) : g.label v ∈ distinctValues b := by
  rw [distinctValues, mem_sortedDedup]
  exact List.mem_flatMap.2 ⟨g, hg, List.mem_map.2 ⟨v, hv, rfl⟩⟩

theorem cred_mem_stepSigs {gls : List (WLGraph × (Nat → Nat))} {gl : WLGraph × (Nat → Nat)}
    {v : Nat} (hgl : gl ∈ gls) (hv : v ∈ gl.1.nodes) : cred gl.1 gl.2 v ∈ stepSigs gls := by
  rw [stepSigs, mem_sortedDedup]
  exact List.mem_flatMap.2 ⟨gl, hgl, List.mem_map.2 ⟨v, hv, rfl⟩⟩

theorem mem_iterCodes_zero {st : FitState} {c : Nat} :
    c ∈ iterCodes st 0 ↔ c < st.dv.length := by
  simp [iterCodes]

/-- Codes of refinement iteration `k+1` fill `[cnt_k, cnt_{k+1})`. -/
theorem mem_iterCodes_succ_bounds {b : List WLGraph} {n k : Nat} (hk : k < n) {c : Nat}
    (hc : c ∈ iterCodes (fitIter b n) (k + 1)) :
    (fitIter b k).cnt ≤ c ∧ c < (fitIter b (k + 1)).cnt := by
  rw [iterCodes, fitIter_invs_getD b _ hk] at hc
  rcases List.mem_map.1 hc with ⟨j, hj, rfl⟩
  rw [List.mem_range] at hj
  rw [fitIter_cnt_succ]
  dsimp only at hj ⊢
  omega

/-- Every code of iteration `k` is strictly below `cnt_k`. -/
theorem iterCodes_lt_cnt {b : List WLGraph} {n k : Nat} (hk : k ≤ n) {c : Nat}
    (hc : c ∈ iterCodes (fitIter b n) k) : c < (fitIter b k).cnt := by
  cases k with
  | zero =>
    rw [mem_iterCodes_zero, fitIter_dv] at hc
    rw [fitIter_cnt_zero]
    exact hc
  | succ k => exact (mem_iterCodes_succ_bounds (by omega) hc).2

/-- Codes of different iterations are strictly ordered by iteration index
(in particular disjoint: no code is reused across iterations). -/
theorem iterCodes_strict_mono {b : List WLGraph} {n j k : Nat} (hjk : j < k) (hk : k ≤ n)
    {c1 c2 : Nat} (h1 : c1 ∈ iterCodes (fitIter b n) j) (h2 : c2 ∈ iterCodes (fitIter b n) k) :
    c1 < c2 := by
  cases k with
  | zero => omega
  | succ m =>
    have hc2 : (fitIter b m).cnt ≤ c2 := (mem_iterCodes_succ_bounds (by omega) h2).1
    have hc1 : c1 < (fitIter b j).cnt := iterCodes_lt_cnt (by omega) h1
    have : (fitIter b j).cnt ≤ (fitIter b m).cnt := fitIter_cnt_mono b (by omega)
    omega

/-- Codes actually assigned to nodes at iteration `k` are values of
iteration `k`'s inverse dictionary. -/
theorem fit_node_code_mem {b : List WLGraph} {n : Nat} :
    ∀ {k : Nat}, k < n → ∀ gl ∈ (fitIter b k).gls, ∀ v ∈ gl.1.nodes,
      gl.2 v ∈ iterCodes (fitIter b n) k
  | 0, _, gl, hgl, v, hv => by
    rcases List.mem_map.1 hgl with ⟨g, hg, rfl⟩
    rw [mem_iterCodes_zero, fitIter_dv]
    exact posOf_lt_length (label_mem_distinctValues hg hv)
  | k + 1, hk, gl, hgl, v, hv => by
    rcases List.mem_map.1 hgl with ⟨gl', hgl', rfl⟩
    have hv' : v ∈ gl'.1.nodes := hv
    have hcred : cred gl'.1 gl'.2 v ∈ stepSigs (fitIter b k).gls :=
      cred_mem_stepSigs hgl' hv'
    rw [iterCodes, fitIter_invs_getD b _ (by omega)]
    refine List.mem_map.2 ⟨posOf (cred gl'.1 gl'.2 v) (stepSigs (fitIter b k).gls), ?_, rfl⟩
    rw [List.mem_range]
    exact posOf_lt_length hcred

/-- **C2.** During fit, iteration 0 maps the distinct raw labels of the batch
to the sequential codes `0, …, d-1` in ascending order of label value; each
refinement iteration sorts its distinct signatures, assigns them codes in
ascending signature order starting exactly at the global counter left by the
previous iteration, and every code assigned at a later iteration is strictly
greater than every code of any earlier iteration, so no code is reused
across iterations of one fit session. -/
theorem c2_fit_sequential_codes (b : List WLGraph) (n : Nat) :
    -- iteration-0 dictionary: keys are exactly the occurring raw labels,
    -- codes ascend with label value and are exactly 0, …, d-1
    (∀ x, x ∈ distinctValues b ↔ ∃ g ∈ b, ∃ v ∈ g.nodes, g.label v = x) ∧
    (∀ x ∈ distinctValues b, ∀ y ∈ distinctValues b, x < y →
      posOf x (distinctValues b) < posOf y (distinctValues b)) ∧
    (∀ x ∈ distinctValues b, posOf x (distinctValues b) < (distinctValues b).length) ∧
    (∀ c, c < (distinctValues b).length → ∃ x ∈ distinctValues b, posOf x (distinctValues b) = c) ∧
    -- refinement dictionaries: the recorded offset continues the global
    -- counter, keys are assigned in ascending signature order
    (∀ k, k < n →
      ((fitIter b n).invs.getD k (0, [])).1 = (fitIter b k).cnt ∧
      (fitIter b (k + 1)).cnt =
        (fitIter b k).cnt + ((fitIter b n).invs.getD k (0, [])).2.length ∧
      (∀ s ∈ ((fitIter b n).invs.getD k (0, [])).2, ∀ t ∈ ((fitIter b n).invs.getD k (0, [])).2,
        StrOrd s t → s ≠ t →
        posOf s ((fitIter b n).invs.getD k (0, [])).2 <
          posOf t ((fitIter b n).invs.getD k (0, [])).2)) ∧
    -- node codes at iteration k come from iteration k's dictionary
    (∀ k, k < n → ∀ gl ∈ (fitIter b k).gls, ∀ v ∈ gl.1.nodes,
      gl.2 v ∈ iterCodes (fitIter b n) k) ∧
    -- codes strictly increase across iterations: never reused
    (∀ j k, j < k → k ≤ n → ∀ c1 ∈ iterCodes (fitIter b n) j, ∀ c2 ∈ iterCodes (fitIter b n) k,
      c1 < c2) := by
  refine ⟨?_, ?_, ?_, ?_, ?_, ?_, ?_⟩
  · intro x
    rw [distinctValues, mem_sortedDedup]
    constructor
    · intro hx
      rcases List.mem_flatMap.1 hx with ⟨g, hg, hx⟩
      rcases List.mem_map.1 hx with ⟨v, hv, rfl⟩
      exact ⟨g, hg, v, hv, rfl⟩
    · rintro ⟨g, hg, v, hv, rfl⟩
      exact List.mem_flatMap.2 ⟨g, hg, List.mem_map.2 ⟨v, hv, rfl⟩⟩
  · intro x hx y hy hxy
    exact posOf_lt_posOf (r := (· ≤ ·)) (sorted_sortedDedup _ _) (nodup_sortedDedup _ _)
      hx hy (Nat.le_of_lt hxy) (Nat.ne_of_lt hxy)
  · intro x hx
    exact posOf_lt_length hx
  · intro c hc
    exact ⟨(distinctValues b).get ⟨c, hc⟩, List.get_mem _ _ _,
      posOf_get (nodup_sortedDedup _ _) ⟨c, hc⟩⟩
  · intro k hk
    rw [fitIter_invs_getD b _ hk]
    refine ⟨rfl, fitIter_cnt_succ b k, ?_⟩
    intro s hs t ht hst hne
    exact posOf_lt_posOf (r := StrOrd) (sorted_sortedDedup _ _) (nodup_sortedDedup _ _)
      hs ht hst hne
  · exact fun k hk => fit_node_code_mem hk
  · exact fun j k hjk hk c1 h1 c2 h2 => iterCodes_strict_mono hjk hk h1 h2

/-! ### Concrete example graphs (used as witnesses and failing inputs) -/

/-- A single edge `0 – 1` with labels `0 ↦ 0`, `1 ↦ 1`. -/
def pathGraph : WLGraph :=
  ⟨[0, 1], fun v => if v = 0 then [1] else if v = 1 then [0] else [], fun v => v⟩

/-- A single isolated node `0` labelled `0`. -/
def isoGraph : WLGraph := ⟨[0], fun _ => [], fun _ => 0⟩

/-! ### C3: the signature string -/

/-- Python's `sorted` depends only on the multiset of entries. -/
theorem pySorted_perm_eq {l1 l2 : List Nat} (h : l1.Perm l2) : pySorted l1 = pySorted l2 :=
  List.eq_of_perm_of_sorted
    ((List.perm_insertionSort _ l1).trans (h.trans (List.perm_insertionSort _ l2).symm))
    (List.sorted_insertionSort _ l1) (List.sorted_insertionSort _ l2)

theorem cred_eq_of_perm {g g' : WLGraph} {L L' : Nat → Nat} {v v' : Nat}
    (hL : L v = L' v') (h : ((g.adj v).map L).Perm ((g'.adj v').map L')) :
    cred g L v = cred g' L' v' := by
  rw [cred, cred, hL, pySorted_perm_eq h]

theorem pySorted_length (l : List Nat) : (pySorted l).length = l.length :=
  (List.perm_insertionSort _ l).length_eq

theorem cred_ne_of_isolated {g g' : WLGraph} {L L' : Nat → Nat} {v v' : Nat}
    (hL : L v = L' v') (h : g.adj v = []) (h' : g'.adj v' ≠ []) :
    cred g L v ≠ cred g' L' v' := by
  intro heq
  have hlen := congrArg String.length heq
  have hempty : pySorted ((g.adj v).map L) = [] := by rw [h]; rfl
  obtain ⟨b, m, hbm⟩ : ∃ b m, pySorted ((g'.adj v').map L') = b :: m := by
    rcases hs : pySorted ((g'.adj v').map L') with _ | ⟨b, m⟩
    · have := pySorted_length ((g'.adj v').map L')
      rw [hs] at this
      rcases hadj : g'.adj v' with _ | ⟨a, t⟩
      · exact absurd hadj h'
      · rw [hadj] at this
        simp at this
    · exact ⟨b, m, rfl⟩
  rw [cred, cred, hempty, hbm, hL] at hlen
  simp only [length_append'] at hlen
  have h1 : ("," : String).length = 1 := rfl
  have h2 : (pyListStr [] : String).length = 2 := rfl
  have h3 := pyListStr_length_ge b m
  omega

/-- **C3.** For every refinement iteration and node, relabeling acts through
the signature string `str(code) + "," + str(sorted neighbour codes)`; the
signature is invariant under the enumeration order of the neighbours, and an
isolated node's signature differs from that of any node with the same
current code and at least one neighbour. -/
theorem c3_signature_string (g g' : WLGraph) (L L' : Nat → Nat) (v v' : Nat) :
    -- the fit and transform loops relabel node v through cred only
    (∀ cnt sigs, (relabel cnt sigs (g, L)).2 v = cnt + posOf (cred g L v) sigs) ∧
    (∀ st : FitState, (fitStep st).gls = st.gls.map (relabel st.cnt (stepSigs st.gls))) ∧
    -- the signature string is str(own code) + "," + str(sorted neighbour codes)
    cred g L v = pyStr (L v) ++ "," ++ pyListStr (pySorted ((g.adj v).map L)) ∧
    -- invariance under neighbour enumeration order
    (L v = L' v' → ((g.adj v).map L).Perm ((g'.adj v').map L') →
      cred g L v = cred g' L' v') ∧
    -- isolated vs non-isolated with the same current code
    (L v = L' v' → g.adj v = [] → g'.adj v' ≠ [] → cred g L v ≠ cred g' L' v') :=
  ⟨fun _ _ => rfl, fun _ => rfl, rfl,
    fun hL h => cred_eq_of_perm hL h,
    fun hL h h' => cred_ne_of_isolated hL h h'⟩

/-- Witness for C3 at concrete inputs: node 0 of `pathGraph` (one neighbour)
and node 0 of `isoGraph` (no neighbours), both with current code 0. -/
theorem c3_signature_string_witness :
    cred isoGraph (fun _ => 0) 0 ≠ cred pathGraph (fun _ => 0) 0 :=
  (c3_signature_string isoGraph pathGraph (fun _ => 0) (fun _ => 0) 0 0).2.2.2.2
    rfl rfl (by decide)

/-! ### C1: code extension during transform -/

/-- **C1** (refuting the claimed invariant): with the model fitted on
`[pathGraph]` for one refinement, the iteration-1 dictionary maps
`"0,[1]" ↦ 2` and `"1,[0]" ↦ 3`.  Transforming the isolated query graph
produces the previously-unseen iteration-1 signature `"0,[]"`, and
`transform` assigns it the code `len(_inv_labels[1]) + 0 = 2` — a code that
already belongs to fit-time signature `"0,[1]"` of the same iteration and is
not strictly greater than the fit-time codes `{2, 3}` of that iteration. -/
theorem c1_transform_code_collision :
    (fitIter [pathGraph] 1).invs = [(2, ["0,[1]", "1,[0]"])] ∧
    cred isoGraph ((transIter (fitIter [pathGraph] 1).dv (fitIter [pathGraph] 1).invs
        [isoGraph] 0).getD 0 (isoGraph, fun _ => 0)).2 0 = "0,[]" ∧
    "0,[]" ∉ ((fitIter [pathGraph] 1).invs.getD 0 (0, [])).2 ∧
    ((transIter (fitIter [pathGraph] 1).dv (fitIter [pathGraph] 1).invs
        [isoGraph] 1).getD 0 (isoGraph, fun _ => 0)).2 0 = 2 ∧
    2 ∈ iterCodes (fitIter [pathGraph] 1) 1 ∧
    3 ∈ iterCodes (fitIter [pathGraph] 1) 1 := by
  refine ⟨by decide, by decide, by decide, by decide, by decide, by decide⟩

/-! ### C4: transform agrees with a counterfactual fit

If every raw label and every per-iteration signature of the query graph is
already a key of the fitted inverse dictionaries, the batch `B ++ [q]` would
have produced exactly the same dictionaries as `B`, and `transform` gives
`q`'s nodes the very codes that counterfactual fit would have given them. -/

theorem cred_congr {g : WLGraph} {L L' : Nat → Nat} {v : Nat}
    (hv : L v = L' v) (hadj : ∀ w ∈ g.adj v, L w = L' w) : cred g L v = cred g L' v := by
  rw [cred, cred, hv, List.map_eq_map_iff.mpr hadj]

theorem distinctValues_append_subsumed {B : List WLGraph} {q : WLGraph}
    (h : ∀ v ∈ q.nodes, q.label v ∈ distinctValues B) :
    distinctValues (B ++ [q]) = distinctValues B := by
  apply sortedDedup_eq_of_mem_iff
  intro x
  rw [List.flatMap_append]
  constructor
  · intro hx
    rcases List.mem_append.1 hx with hx | hx
    · exact hx
    · rcases List.mem_flatMap.1 hx with ⟨g, hg, hxg⟩
      rw [show g = q by simpa using hg] at hxg
      rcases List.mem_map.1 hxg with ⟨v, hv, rfl⟩
      have := h v hv
      rwa [distinctValues, mem_sortedDedup] at this
  · intro hx
    exact List.mem_append.2 (Or.inl hx)

theorem stepSigs_append_subsumed {gls : List (WLGraph × (Nat → Nat))} {q : WLGraph}
    {Lq : Nat → Nat} (h : ∀ v ∈ q.nodes, cred q Lq v ∈ stepSigs gls) :
    stepSigs (gls ++ [(q, Lq)]) = stepSigs gls := by
  apply sortedDedup_eq_of_mem_iff
  intro x
  rw [batchCreds, List.flatMap_append]
  constructor
  · intro hx
    rcases List.mem_append.1 hx with hx | hx
    · exact hx
    · rcases List.mem_flatMap.1 hx with ⟨gl, hgl, hxg⟩
      rw [show gl = (q, Lq) by simpa using hgl] at hxg
      rcases List.mem_map.1 hxg with ⟨v, hv, rfl⟩
      have := h v hv
      rwa [stepSigs, mem_sortedDedup] at this
  · intro hx
    exact List.mem_append.2 (Or.inl hx)

/-- `transform` on a one-graph batch carries a single (graph, labeling) pair. -/
theorem transIter_singleton (inv0 : List Nat) (invs : List (Nat × List String)) (q : WLGraph) :
    ∀ i, ∃ f, transIter inv0 invs [q] i = [(q, f)]
  | 0 => ⟨_, rfl⟩
  | i + 1 => by
    rcases transIter_singleton inv0 invs q i with ⟨f, hf⟩
    exact ⟨_, by rw [transIter, hf]; rfl⟩

theorem c4_aux (B : List WLGraph) (q : WLGraph) (n : Nat) (hwf : q.WF)
    (h0 : ∀ v ∈ q.nodes, q.label v ∈ distinctValues B)
    (hsig : ∀ i, i < n → ∀ v ∈ q.nodes,
      cred q ((transIter (distinctValues B) (fitIter B n).invs [q] i).getD 0
        (q, fun _ => 0)).2 v ∈ ((fitIter B n).invs.getD i (0, [])).2) :
    ∀ i, i ≤ n →
      (fitIter (B ++ [q]) i).cnt = (fitIter B i).cnt ∧
      (fitIter (B ++ [q]) i).invs = (fitIter B i).invs ∧
      ∃ Lq, (fitIter (B ++ [q]) i).gls = (fitIter B i).gls ++ [(q, Lq)] ∧
        ∀ v ∈ q.nodes,
          ((transIter (distinctValues B) (fitIter B n).invs [q] i).getD 0
            (q, fun _ => 0)).2 v = Lq v := by
  intro i
  induction i with
  | zero =>
    intro _
    have hdv : distinctValues (B ++ [q]) = distinctValues B :=
      distinctValues_append_subsumed h0
    refine ⟨?_, rfl, label0 (distinctValues B) q, ?_, ?_⟩
    · rw [fitIter_cnt_zero, fitIter_cnt_zero, hdv]
    · show (B ++ [q]).map _ = B.map _ ++ [(q, label0 (distinctValues B) q)]
      rw [List.map_append]
      simp [hdv]
    · intro v hv
      simp only [transIter, tlabel0, List.map_cons, List.map_nil, List.getD_cons_zero]
      rw [if_pos (h0 v hv)]
      rfl
  | succ i ih =>
    intro hin
    have hi : i < n := by omega
    obtain ⟨hcnt, hinvs, Lq, hgls, htl⟩ := ih (by omega)
    -- the transform labeling and the counterfactual fit labeling build the
    -- same signatures (neighbours stay inside the node set)
    have hcred : ∀ v ∈ q.nodes,
        cred q ((transIter (distinctValues B) (fitIter B n).invs [q] i).getD 0
          (q, fun _ => 0)).2 v = cred q Lq v :=
      fun v hv => cred_congr (htl v hv) (fun w hw => htl w (hwf v hv w hw))
    have hsig' : ∀ v ∈ q.nodes, cred q Lq v ∈ stepSigs (fitIter B i).gls := by
      intro v hv
      have := hsig i hi v hv
      rw [fitIter_invs_getD B _ hi] at this
      rwa [hcred v hv] at this
    have hsigs : stepSigs ((fitIter B i).gls ++ [(q, Lq)]) = stepSigs (fitIter B i).gls :=
      stepSigs_append_subsumed hsig'
    have hstep : stepSigs (fitIter (B ++ [q]) i).gls = stepSigs (fitIter B i).gls := by
      rw [hgls, hsigs]
    refine ⟨?_, ?_, ?_⟩
    · rw [fitIter_cnt_succ, fitIter_cnt_succ, hcnt, hstep]
    · rw [fitIter_invs_succ, fitIter_invs_succ, hinvs, hcnt, hstep]
    · refine ⟨fun v => (fitIter B i).cnt + posOf (cred q Lq v) (stepSigs (fitIter B i).gls),
        ?_, ?_⟩
      · show (fitIter (B ++ [q]) i).gls.map _ = _
        rw [hgls, List.map_append, hsigs, hcnt]
        rfl
      · intro v hv
        obtain ⟨f, hf⟩ := transIter_singleton (distinctValues B) (fitIter B n).invs q i
        have hfTL : ((transIter (distinctValues B) (fitIter B n).invs [q] i).getD 0
            (q, fun _ => 0)).2 = f := by rw [hf]; rfl
        show ((tstep ((fitIter B n).invs.getD i (0, []))
          (transIter (distinctValues B) (fitIter B n).invs [q] i)).getD 0 (q, fun _ => 0)).2 v = _
        rw [hf, fitIter_invs_getD B _ hi]
        show (if cred q f v ∈ stepSigs (fitIter B i).gls then _ else _) = _
        have hfv : cred q f v = cred q Lq v := by
          rw [← hfTL]
          exact hcred v hv
        rw [hfv, if_pos (hsig' v hv)]

/-- **C4.** For a query graph `q` all of whose raw labels are fit-time keys of
`_inv_labels[0]` and all of whose per-iteration signatures are fit-time keys
of `_inv_labels[i]`, `transform` assigns `q`'s nodes at every iteration
exactly the codes `fit` would have assigned had `q` been part of the
original batch (`q` appended to the fit batch). -/
theorem c4_transform_matches_counterfactual_fit (B : List WLGraph) (q : WLGraph) (n : Nat)
    (hwf : q.WF)
    (h0 : ∀ v ∈ q.nodes, q.label v ∈ (fitIter B n).dv)
    (hsig : ∀ i, i < n → ∀ v ∈ q.nodes,
      cred q ((transIter (fitIter B n).dv (fitIter B n).invs [q] i).getD 0
        (q, fun _ => 0)).2 v ∈ ((fitIter B n).invs.getD i (0, [])).2) :
    ∀ i, i ≤ n → ∀ v ∈ q.nodes,
      ((transIter (fitIter B n).dv (fitIter B n).invs [q] i).getD 0 (q, fun _ => 0)).2 v =
        ((fitIter (B ++ [q]) i).gls.getD B.length (q, fun _ => 0)).2 v := by
  rw [fitIter_dv] at h0 hsig ⊢
  intro i hi v hv
  obtain ⟨hcnt, hinvs, Lq, hgls, htl⟩ := c4_aux B q n hwf h0 hsig i hi
  rw [htl v hv, hgls,
    List.getD_append_right _ _ _ _ (by rw [fitIter_gls_length])]
  simp [fitIter_gls_length]

/-- Witness for C4: a second copy of `pathGraph` transformed against a model
fitted on `[pathGraph]` receives, at iteration 1, the code the counterfactual
fit on `[pathGraph, pathGraph]` gives it. -/
theorem c4_transform_matches_counterfactual_fit_witness :
    ((transIter (fitIter [pathGraph] 1).dv (fitIter [pathGraph] 1).invs [pathGraph] 1).getD 0
      (pathGraph, fun _ => 0)).2 0 =
      ((fitIter ([pathGraph] ++ [pathGraph]) 1).gls.getD 1 (pathGraph, fun _ => 0)).2 0 :=
  c4_transform_matches_counterfactual_fit [pathGraph] pathGraph 1
    (by decide) (by decide) (by decide) 1 (by decide) 0 (by decide)

/-- Witness for C2 on the concrete batch `[pathGraph]`: label 0 receives a
smaller iteration-0 code than label 1, and every iteration-0 code is below
every iteration-1 code. -/
theorem c2_fit_sequential_codes_witness :
    posOf 0 (distinctValues [pathGraph]) < posOf 1 (distinctValues [pathGraph]) ∧
    (∀ c1 ∈ iterCodes (fitIter [pathGraph] 1) 0, ∀ c2 ∈ iterCodes (fitIter [pathGraph] 1) 1,
      c1 < c2) :=
  ⟨(c2_fit_sequential_codes [pathGraph] 1).2.1 0 (by decide) 1 (by decide) (by decide),
   (c2_fit_sequential_codes [pathGraph] 1).2.2.2.2.2.2 0 1 (by decide) (by decide)⟩

/-! ### C6: iteration count

`__init__` reads `niter` (default 5), raises unless it is positive and then
stores `self._niter = niter + 1`; `parse_input` runs iteration 0 plus
`for i in range(1, self._niter)`, and `transform` runs iteration 0 plus the
same loop, so both make `self._niter = niter_user + 1` relabeling rounds and
base-kernel calls. -/

/-- `__init__`'s validation of `niter`: returns the internal `self._niter`. -/
def wlInitNiter (niter : Int) : Except String Nat :=
  if niter ≤ 0 then Except.error "number of iterations must be greater than zero"
  else Except.ok (niter + 1).toNat

/-- The relabeled datasets handed to base kernels during fit, one per
iteration `0, …, niterInternal - 1` (each receives one `fit`/`fit_transform`
call on a fresh base-kernel instance). -/
def fitKernelData (batch : List WLGraph) (niterInternal : Nat) :
    List (List (WLGraph × (Nat → Nat))) :=
  (List.range niterInternal).map fun i => (fitIter batch i).gls

/-- The relabeled datasets handed to the retained base kernels during
transform, one per iteration `0, …, niterInternal - 1`. -/
def transKernelData (inv0 : List Nat) (invs : List (Nat × List String))
    (qbatch : List WLGraph) (niterInternal : Nat) :
    List (List (WLGraph × (Nat → Nat))) :=
  (List.range niterInternal).map fun i => transIter inv0 invs qbatch i

/-- **C6.** Construction fails exactly when the configured iteration count is
not positive; for a valid count `niter`, the internal count is `niter + 1`
and both fit and transform perform exactly `niter + 1` relabeling rounds and
base-kernel calls (iteration 0 plus `niter` refinements, one inverse
dictionary each). -/
theorem c6_iteration_count (niter : Int) (batch qbatch : List WLGraph)
    (inv0 : List Nat) (invs : List (Nat × List String)) :
    (niter ≤ 0 ↔ wlInitNiter niter = Except.error
      "number of iterations must be greater than zero") ∧
    (0 < niter →
      wlInitNiter niter = Except.ok (niter.toNat + 1) ∧
      (fitKernelData batch (niter.toNat + 1)).length = niter.toNat + 1 ∧
      (fitIter batch niter.toNat).invs.length + 1 = niter.toNat + 1 ∧
      (transKernelData inv0 invs qbatch (niter.toNat + 1)).length = niter.toNat + 1) := by
  constructor
  · constructor
    · intro h
      rw [wlInitNiter, if_pos h]
    · intro h
      by_contra hn
      rw [wlInitNiter, if_neg hn] at h
      exact Except.noConfusion h
  · intro h
    refine ⟨?_, ?_, ?_, ?_⟩
    · rw [wlInitNiter, if_neg (by omega)]
      congr 1
      omega
    · rw [fitKernelData, List.length_map, List.length_range]
    · rw [fitIter_invs_length]
    · rw [transKernelData, List.length_map, List.length_range]

/-- Witness for C6 at the default `niter = 5`: construction succeeds with
internal count 6, and fit makes 6 base-kernel calls. -/
theorem c6_iteration_count_witness :
    wlInitNiter 5 = Except.ok 6 ∧ (fitKernelData [pathGraph] 6).length = 6 :=
  ⟨((c6_iteration_count 5 [pathGraph] [] [] []).2 (by decide)).1,
   ((c6_iteration_count 5 [pathGraph] [] [] []).2 (by decide)).2.1⟩

/-! ### C7: batch validation

`parse_input` (and the parsing loop of `transform`) classifies each element
of the iterable `X`: a zero-length iterable is skipped with a warning, an
iterable of 2 or 3 entries becomes a `Graph`, a `Graph` object is taken as
is, anything else raises; after the loop, `nx == 0` raises
`'parsed input is empty'`. -/

/-- One element of the input iterable, as the parsing loop classifies it. -/
inductive InputElem where
  | empty : InputElem
  | parts : WLGraph → InputElem
  | graphObj : WLGraph → InputElem
  | invalid : InputElem

/-- Is the element a zero-length iterable (skipped with a warning)? -/
def InputElem.isEmptyElem : InputElem → Bool
  | .empty => true
  | _ => false

/-- Does the element raise `ValueError` in the loop? -/
def InputElem.isInvalid : InputElem → Bool
  | .invalid => true
  | _ => false

/-- The graph an element contributes, if any. -/
def elemGraph : InputElem → Option WLGraph
  | .parts g => some g
  | .graphObj g => some g
  | _ => none

/-- The element loop of `parse_input`: collects parsed graphs and counts the
emitted warnings, propagating the `ValueError` of a malformed element. -/
def parseElems : List InputElem → Except String (List WLGraph × Nat)
  | [] => Except.ok ([], 0)
  | e :: rest =>
    match e with
    | .empty => (parseElems rest).map fun p => (p.1, p.2 + 1)
    | .parts g => (parseElems rest).map fun p => (g :: p.1, p.2)
    | .graphObj g => (parseElems rest).map fun p => (g :: p.1, p.2)
    | .invalid => Except.error "each element of X must be a graph object or a list"

/-- `parse_input`'s validation: the element loop followed by the
`nx == 0` check. -/
def parseInput (X : List InputElem) : Except String (List WLGraph × Nat) :=
  match parseElems X with
  | Except.error e => Except.error e
  | Except.ok p => if p.1.length = 0 then Except.error "parsed input is empty" else Except.ok p

theorem parseElems_no_invalid {X : List InputElem} (h : ∀ e ∈ X, e.isInvalid = false) :
    parseElems X = Except.ok (X.filterMap elemGraph, X.countP InputElem.isEmptyElem) := by
  induction X with
  | nil => rfl
  | cons e rest ih =>
    have hrest := ih fun x hx => h x (List.mem_cons_of_mem e hx)
    cases e with
    | empty =>
      simp [parseElems, hrest, Except.map, List.filterMap_cons, elemGraph, List.countP_cons,
        InputElem.isEmptyElem]
    | parts g =>
      simp [parseElems, hrest, Except.map, List.filterMap_cons, elemGraph, List.countP_cons,
        InputElem.isEmptyElem]
    | graphObj g =>
      simp [parseElems, hrest, Except.map, List.filterMap_cons, elemGraph, List.countP_cons,
        InputElem.isEmptyElem]
    | invalid => exact absurd (h _ (List.mem_cons_self _ _)) (by simp [InputElem.isInvalid])

/-- **C7.** `fit([])` raises (`parsed input is empty`); a batch of only
zero-length elements, e.g. `fit([[]])`, also raises after the empty elements
are skipped; and a zero-length element inside an otherwise valid batch is
skipped with one warning while every valid element is parsed in order. -/
theorem c7_empty_batch_validation (X : List InputElem) :
    parseInput [] = Except.error "parsed input is empty" ∧
    parseInput [InputElem.empty] = Except.error "parsed input is empty" ∧
    ((∀ e ∈ X, e.isEmptyElem = true) →
      parseInput X = Except.error "parsed input is empty") ∧
    ((∀ e ∈ X, e.isInvalid = false) → (X.filterMap elemGraph).length ≠ 0 →
      parseInput X = Except.ok (X.filterMap elemGraph, X.countP InputElem.isEmptyElem)) := by
  refine ⟨rfl, rfl, ?_, ?_⟩
  · intro h
    have hno : ∀ e ∈ X, e.isInvalid = false := by
      intro e he
      cases e <;> first | rfl | (exact absurd (h _ he) (by simp [InputElem.isEmptyElem]))
    have hg : X.filterMap elemGraph = [] := by
      rw [List.filterMap_eq_nil_iff]
      intro e he
      cases e <;> first | rfl | (exact absurd (h _ he) (by simp [InputElem.isEmptyElem]))
    rw [parseInput, parseElems_no_invalid hno, hg]
    rfl
  · intro hno hne
    rw [parseInput, parseElems_no_invalid hno]
    exact if_neg hne

/-- Witness for C7: a batch holding one empty element and one valid graph
parses to that one graph with exactly one warning. -/
theorem c7_empty_batch_validation_witness :
    parseInput [InputElem.empty, InputElem.parts pathGraph] =
      Except.ok ([pathGraph], 1) :=
  (c7_empty_batch_validation [InputElem.empty, InputElem.parts pathGraph]).2.2.2
    (by decide) (by decide)

/-! ### Kernel aggregation and normalization (C5, C8, C10)

The base kernels are external collaborators (spec §6); we model the
`i`-th fitted instance by the matrix-valued function `bkT i data`
(`self.X[i].transform(data)`), its fit-side self-similarity diagonal
`bkDiagX i` (`self.X[i].diagonal()[0]`) and its query-side diagonal
`bkDiagY i data` (`self.X[i].diagonal()[1]` after `data` was last
transformed).  Matrices are functions over the query index (first) and the
fit index (second); per spec §3 the transform matrix is "rectangular
(query-against-fit)". -/

/-- `K = np.zeros(...); K += ...` over a list of per-iteration matrices. -/
noncomputable def accumMatrices (Ks : List (Nat → Nat → ℝ)) : Nat → Nat → ℝ :=
  Ks.foldl (fun acc Ki => fun a b => acc a b + Ki a b) fun _ _ => 0

/-- Running `+=` accumulation of per-iteration diagonal vectors. -/
noncomputable def accumVec (ds : List (Nat → ℝ)) : Nat → ℝ :=
  ds.foldl (fun acc d => fun a => acc a + d a) fun _ => 0

theorem accumMatrices_aux (Ks : List (Nat → Nat → ℝ)) :
    ∀ (init : Nat → Nat → ℝ) (a b : Nat),
      (Ks.foldl (fun acc Ki => fun a b => acc a b + Ki a b) init) a b =
        init a b + (Ks.map fun K => K a b).sum := by
  induction Ks with
  | nil => intro init a b; simp
  | cons K Ks ih =>
    intro init a b
    simp only [List.foldl_cons, List.map_cons, List.sum_cons]
    rw [ih]
    ring

/-- The element-wise accumulation equals the element-wise sum over iterations. -/
theorem accumMatrices_eq_sum (Ks : List (Nat → Nat → ℝ)) (a b : Nat) :
    accumMatrices Ks a b = (Ks.map fun K => K a b).sum := by
  rw [accumMatrices, accumMatrices_aux]
  simp

theorem accumVec_aux (ds : List (Nat → ℝ)) :
    ∀ (init : Nat → ℝ) (a : Nat),
      (ds.foldl (fun acc d => fun a => acc a + d a) init) a =
        init a + (ds.map fun d => d a).sum := by
  induction ds with
  | nil => intro init a; simp
  | cons d ds ih =>
    intro init a
    simp only [List.foldl_cons, List.map_cons, List.sum_cons]
    rw [ih]
    ring

theorem accumVec_eq_sum (ds : List (Nat → ℝ)) (a : Nat) :
    accumVec ds a = (ds.map fun d => d a).sum := by
  rw [accumVec, accumVec_aux]
  simp

/-- `fit_transform` after `parse_input`: sum the per-iteration matrices, take
the diagonal, and divide once if normalization is on
(`np.divide(km, np.sqrt(np.outer(X_diag, X_diag)))`). -/
noncomputable def fitTransformK (normalize : Bool) (Ks : List (Nat → Nat → ℝ)) :
    Nat → Nat → ℝ :=
  let km := accumMatrices Ks
  if normalize then fun a b => km a b / Real.sqrt (km a a * km b b) else km

/-- The external base-kernel collaborators of one fitted model (spec §6). -/
structure BaseKernels where
  bkT : Nat → List (WLGraph × (Nat → Nat)) → Nat → Nat → ℝ
  bkDiagX : Nat → Nat → ℝ
  bkDiagY : Nat → List (WLGraph × (Nat → Nat)) → Nat → ℝ

/-- The state a successful fit installs on the estimator: `self._inv_labels`
(inside `fs`), `self._nx`, `self._niter`, the normalization flag, and the
cached fit diagonal `self._X_diag` (present only after `fit_transform` or a
first `diagonal()` call). -/
structure FittedWL where
  fs : FitState
  nx : Nat
  niter : Nat
  normalize : Bool
  xDiag : Option (Nat → ℝ)

/-- `diagonal()`: `Y_diag` is recomputed from the base kernels' query-side
diagonals for the most recently transformed data; `X_diag` is served from
the cache when present, otherwise computed once and cached
(the `except NotFittedError` branch). -/
noncomputable def diagonalOp (bk : BaseKernels) (m : FittedWL)
    (lastData : Nat → List (WLGraph × (Nat → Nat))) :
    ((Nat → ℝ) × (Nat → ℝ)) × FittedWL :=
  let yd := accumVec ((List.range m.niter).map fun i => bk.bkDiagY i (lastData i))
  match m.xDiag with
  | some xd => ((xd, yd), m)
  | none =>
    let xd := accumVec ((List.range m.niter).map fun i => bk.bkDiagX i)
    ((xd, yd), { m with xDiag := some xd })

/-- The computational part of `transform` after parsing: relabel the query
batch per iteration, sum `self.X[i].transform(...)` over all iterations, and
if normalization is on divide once by
`np.sqrt(np.outer(Y_diag, X_diag))`, returning the estimator as the call
leaves it. -/
noncomputable def transformOp (bk : BaseKernels) (m : FittedWL) (qbatch : List WLGraph) :
    (Nat → Nat → ℝ) × FittedWL :=
  let data := fun i => transIter m.fs.dv m.fs.invs qbatch i
  let K := accumMatrices ((List.range m.niter).map fun i => bk.bkT i (data i))
  if m.normalize then
    let dg := diagonalOp bk m data
    ((fun a b => K a b / Real.sqrt (dg.1.2 a * dg.1.1 b)), dg.2)
  else (K, m)

/-- **C5.** With normalization on, every entry of the returned matrix is the
entry of the element-wise sum over all iterations' base-kernel matrices,
divided once — after all iterations are summed — by the square root of the
product of the two graphs' own accumulated self-similarities: for
`fit_transform` both diagonals are the diagonal of the summed matrix, and
for `transform` the query index is paired with the accumulated query
diagonal and the fit index with the cached fit diagonal. -/
theorem c5_normalize_after_sum (Ks : List (Nat → Nat → ℝ)) (bk : BaseKernels)
    (m : FittedWL) (q : List WLGraph) (a b : Nat) :
    fitTransformK true Ks a b =
      (Ks.map fun K => K a b).sum /
        Real.sqrt ((Ks.map fun K => K a a).sum * (Ks.map fun K => K b b).sum) ∧
    fitTransformK false Ks a b = (Ks.map fun K => K a b).sum ∧
    (∀ xd, m.xDiag = some xd → m.normalize = true →
      (transformOp bk m q).1 a b =
        (((List.range m.niter).map fun i =>
            bk.bkT i (transIter m.fs.dv m.fs.invs q i) a b).sum) /
          Real.sqrt
            ((((List.range m.niter).map fun i =>
                bk.bkDiagY i (transIter m.fs.dv m.fs.invs q i) a).sum) * xd b)) := by
  refine ⟨?_, ?_, ?_⟩
  · simp [fitTransformK, accumMatrices_eq_sum]
  · simp [fitTransformK, accumMatrices_eq_sum]
  · intro xd hxd hnorm
    simp only [transformOp, diagonalOp, hnorm, hxd, if_true, accumMatrices_eq_sum,
      accumVec_eq_sum, List.map_map]
    rfl

/-- Trivial base-kernel collaborators, used to instantiate witnesses. -/
noncomputable def bkZero : BaseKernels :=
  ⟨fun _ _ _ _ => 0, fun _ _ => 0, fun _ _ _ => 0⟩

/-- A model as `fit_transform` leaves it: normalization on, fit diagonal cached. -/
noncomputable def mCached : FittedWL :=
  ⟨fitIter [pathGraph] 1, 1, 2, true, some fun _ => 1⟩

/-- Witness for C5: the normalized transform entry of a concrete fitted model
against the isolated query graph. -/
theorem c5_normalize_after_sum_witness :
    (transformOp bkZero mCached [isoGraph]).1 0 0 =
      (((List.range mCached.niter).map fun i =>
          bkZero.bkT i (transIter mCached.fs.dv mCached.fs.invs [isoGraph] i) 0 0).sum) /
        Real.sqrt
          ((((List.range mCached.niter).map fun i =>
              bkZero.bkDiagY i (transIter mCached.fs.dv mCached.fs.invs [isoGraph] i) 0).sum) *
            (fun _ => (1 : ℝ)) 0) :=
  (c5_normalize_after_sum [] bkZero mCached [isoGraph] 0 0).2.2 (fun _ => 1) rfl rfl

/-! ### C8: calls before fit -/

/-- The failure modes of the public operations. -/
inductive WLError where
  | notFitted : WLError
  | validation : String → WLError

/-- `check_is_fitted(self, [...])`: the estimator either carries the
fit-installed attributes or raises `NotFittedError`. -/
def checkIsFitted (est : Option FittedWL) : Except WLError FittedWL :=
  match est with
  | none => Except.error WLError.notFitted
  | some m => Except.ok m

/-- The `transform` method: the fitted check runs before the `None` check,
before parsing, and before any relabeling or base-kernel work. -/
noncomputable def transformMethod (bk : BaseKernels) (est : Option FittedWL)
    (X : Option (List InputElem)) : Except WLError ((Nat → Nat → ℝ) × FittedWL) :=
  match checkIsFitted est with
  | Except.error e => Except.error e
  | Except.ok m =>
    match X with
    | none => Except.error (WLError.validation "transform input cannot be None")
    | some elems =>
      match parseElems elems with
      | Except.error s => Except.error (WLError.validation s)
      | Except.ok p =>
        if p.1.length = 0 then Except.error (WLError.validation "parsed input is empty")
        else Except.ok (transformOp bk m p.1)

/-- The `diagonal` method: `check_is_fitted(self, ['X'])` runs first. -/
noncomputable def diagonalMethod (bk : BaseKernels) (est : Option FittedWL)
    (lastData : Nat → List (WLGraph × (Nat → Nat))) :
    Except WLError (((Nat → ℝ) × (Nat → ℝ)) × FittedWL) :=
  match checkIsFitted est with
  | Except.error e => Except.error e
  | Except.ok m => Except.ok (diagonalOp bk m lastData)

/-- **C8.** On an estimator with no successful fit, `transform` and
`diagonal` raise `NotFittedError`, whatever the input — even `None` or
malformed batches, since the fitted check precedes all input handling. -/
theorem c8_not_fitted_error (bk : BaseKernels) (X : Option (List InputElem))
    (lastData : Nat → List (WLGraph × (Nat → Nat))) :
    transformMethod bk none X = Except.error WLError.notFitted ∧
    diagonalMethod bk none lastData = Except.error WLError.notFitted :=
  ⟨rfl, rfl⟩

/-! ### C9: the caller's graphs are not touched

The `Graph` class lives in `grakel/graph.py`, which is not part of the
sources under verification; its operations are modelled from the spec.  The
caller's graphs form an explicit store and every collaborator call is a
store transformer, so an in-place mutation by the core would surface as a
store change.  The only operations the core ever applies to a caller's
object are `get_edge_dictionary`, `get_labels` (fit and transform paths)
and `desired_format` (transform path, Graph-typed elements); everything
afterwards works on the freshly built `Gs_ed[nx]`, `L[nx]`, `new_labels`
dictionaries. -/

/-- The placeholder graph returned when a store index is out of range. -/
def emptyGraph : WLGraph := ⟨[], fun _ => [], fun _ => 0⟩

/-- Modelled from the spec: `Graph.get_edge_dictionary` (in `grakel/graph.py`,
not under `src/`); spec §3 declares the Graph collaborator "read-only …
Never mutated by the core", so the accessor returns the adjacency mapping
and leaves the store unchanged. -/
def getEdgeDictionary (s : List WLGraph) (i : Nat) : (Nat → List Nat) × List WLGraph :=
  ((s.getD i emptyGraph).adj, s)

/-- Modelled from the spec: `Graph.get_labels`, read-only as above. -/
def getLabels (s : List WLGraph) (i : Nat) : (Nat → Nat) × List WLGraph :=
  ((s.getD i emptyGraph).label, s)

/-- Modelled from the spec: `Graph.desired_format`, the one call `transform`
makes on a caller's object itself (`x.desired_format("dictionary")`); per
spec §3/§6 the collaborator is read-only for the core, so the call leaves
the store unchanged. -/
def desiredFormat (s : List WLGraph) (_i : Nat) : List WLGraph := s

/-- The accessor sequence the fit-path parsing performs on elements
`0, …, n-1` (each is copied into a fresh `Graph`), threading the store. -/
def fitParseStore (s : List WLGraph) : Nat → List ((Nat → List Nat) × (Nat → Nat)) × List WLGraph
  | 0 => ([], s)
  | i + 1 =>
    let p := fitParseStore s i
    let ed := getEdgeDictionary p.2 i
    let lb := getLabels ed.2 i
    (p.1 ++ [(ed.1, lb.1)], lb.2)

/-- The accessor sequence the transform-path parsing performs
(`desired_format` first, then the accessors), threading the store. -/
def transParseStore (s : List WLGraph) : Nat → List ((Nat → List Nat) × (Nat → Nat)) × List WLGraph
  | 0 => ([], s)
  | i + 1 =>
    let p := transParseStore s i
    let s1 := desiredFormat p.2 i
    let ed := getEdgeDictionary s1 i
    let lb := getLabels ed.2 i
    (p.1 ++ [(ed.1, lb.1)], lb.2)

/-- **C9.** Threading the caller's graphs through every collaborator call the
core makes during fit/fit_transform and transform parsing, the store comes
back unchanged: the core never mutates a caller-supplied graph, and all
later relabeling works on the parsed copies. -/
theorem c9_input_graphs_unchanged (s : List WLGraph) (n : Nat) :
    (fitParseStore s n).2 = s ∧ (transParseStore s n).2 = s := by
  induction n with
  | zero => exact ⟨rfl, rfl⟩
  | succ n ih =>
    refine ⟨?_, ?_⟩
    · show (getLabels (getEdgeDictionary (fitParseStore s n).2 n).2 n).2 = s
      rw [getLabels, getEdgeDictionary]
      exact ih.1
    · show (getLabels (getEdgeDictionary (desiredFormat (transParseStore s n).2 n) n).2 n).2 = s
      rw [getLabels, getEdgeDictionary, desiredFormat]
      exact ih.2

/-! ### C10: transform and the stored model state -/

/-- **C10 counterexample.** On a model fitted via `fit()` only (no cached
`_X_diag`) with normalization on, a `transform` call caches `_X_diag`
through `diagonal()`'s `except NotFittedError` branch, so the stored model
state is not left fully unchanged. -/
noncomputable def mFitOnly : FittedWL := ⟨fitIter [pathGraph] 1, 1, 2, true, none⟩

theorem c10_transform_fills_diag_cache :
    (transformOp bkZero mFitOnly [isoGraph]).2 ≠ mFitOnly := by
  intro h
  have h2 := congrArg FittedWL.xDiag h
  simp [transformOp, diagonalOp, mFitOnly] at h2

/-- **C10 (amended).** `transform` never touches the inverse-label
dictionaries, the fitted base-kernel map, or the fit-batch size; it leaves
themodel fully unchanged whenever the fit diagonal is already cached (always
the case after `fit_transform`) or normalization is off, the one exception
being the first normalized `transform` after a plain `fit`, which fills the
`_X_diag` cache with the value `diagonal()` always returns; and transforming
the same input twice returns the same matrix (and a stable model). -/
theorem c10_transform_preserves_fitted_state (bk : BaseKernels) (m : FittedWL)
    (q : List WLGraph) :
    (transformOp bk m q).2.fs = m.fs ∧
    (transformOp bk m q).2.nx = m.nx ∧
    (transformOp bk m q).2.niter = m.niter ∧
    (transformOp bk m q).2.normalize = m.normalize ∧
    (m.xDiag.isSome = true ∨ m.normalize = false → (transformOp bk m q).2 = m) ∧
    (transformOp bk (transformOp bk m q).2 q).1 = (transformOp bk m q).1 ∧
    (transformOp bk (transformOp bk m q).2 q).2 = (transformOp bk m q).2 := by
  by_cases hnorm : m.normalize = true
  · rcases hxd : m.xDiag with _ | xd
    · -- fit() only and normalize: the cache is filled, everything else kept
      have hm2 : (transformOp bk m q).2 =
          { m with xDiag := some (accumVec ((List.range m.niter).map fun i => bk.bkDiagX i)) } := by
        simp [transformOp, diagonalOp, hnorm, hxd]
      refine ⟨by rw [hm2], by rw [hm2], by rw [hm2], by rw [hm2], ?_, ?_, ?_⟩
      · rintro (hs | hf)
        · simp at hs
        · rw [hnorm] at hf
          simp at hf
      · rw [hm2]
        simp [transformOp, diagonalOp, hnorm, hxd]
      · rw [hm2]
        simp [transformOp, diagonalOp, hnorm, hxd]
    · -- cached diagonal: diagonal() serves the cache, model unchanged
      have hm2 : (transformOp bk m q).2 = m := by
        simp [transformOp, diagonalOp, hnorm, hxd]
      refine ⟨by rw [hm2], by rw [hm2], by rw [hm2], by rw [hm2], fun _ => hm2, ?_, ?_⟩
      · rw [hm2]
      · rw [hm2]
        exact hm2
  · -- normalization off: the model is returned as is
    have hm2 : (transformOp bk m q).2 = m := by
      simp [transformOp, hnorm]
    refine ⟨by rw [hm2], by rw [hm2], by rw [hm2], by rw [hm2], fun _ => hm2, ?_, ?_⟩
    · rw [hm2]
    · rw [hm2]
      exact hm2

/-- Witness for the amended C10: on a model whose fit diagonal is cached
(as `fit_transform` leaves it), `transform` returns the model unchanged. -/
theorem c10_transform_preserves_fitted_state_witness :
    (transformOp bkZero mCached [isoGraph]).2 = mCached :=
  (c10_transform_preserves_fitted_state bkZero mCached [isoGraph]).2.2.2.2.1 (Or.inl rfl)

end GrakelWL
